import Mathlib

/-!
Shallow embedding of the `jutf` Go package (modified UTF-8 codec,
`src/jutf.go`), together with proofs about its encoder and decoder.

Bytes are modelled as `Nat` (the encoder only ever produces values below
256; the decoder is defined on arbitrary naturals, and theorems that need
byte ranges state them explicitly). Go runes (`int32`) are modelled as
`Int`; inside a branch whose guard shows the rune is a nonnegative
in-range value, the Go bit operations are computed on its `Nat` value,
which agrees with the `int32` arithmetic there.
-/

namespace Jutf

/-- Continuation-byte test of Go `unicode/utf8` (`locb = 0x80`,
`hicb = 0xBF`). -/
def isCont (b : Nat) : Bool := decide (0x80 ≤ b ∧ b ≤ 0xbf)

/-- Go `unicode/utf8.ValidString` on the byte sequence: the standard
UTF-8 validity check, with the `first`/`acceptRanges` tables of the Go
standard library written out (`0xE0` requires a first continuation in
[0xA0,0xBF], `0xED` in [0x80,0x9F], `0xF0` in [0x90,0xBF], `0xF4` in
[0x80,0x8F]). Every step consumes at least one byte, so the scan runs at
most `d.length` iterations; like `decodeLoopF` below, the recursion is
driven by a fuel argument bounding the remaining iterations
(`validUTF8F_congr` shows any sufficient fuel agrees, so the exhausted
case is unreachable). -/
def validUTF8F : Nat → List Nat → Bool
  | _, [] => true
  | 0, _ :: _ => false
  | fuel + 1, b :: rest =>
    if b < 0x80 then validUTF8F fuel rest
    else if 0xc2 ≤ b ∧ b ≤ 0xdf then
      match rest with
      | b1 :: rest1 => isCont b1 && validUTF8F fuel rest1
      | [] => false
    else if 0xe0 ≤ b ∧ b ≤ 0xef then
      match rest with
      | b1 :: b2 :: rest2 =>
        (if b = 0xe0 then decide (0xa0 ≤ b1 ∧ b1 ≤ 0xbf)
         else if b = 0xed then decide (0x80 ≤ b1 ∧ b1 ≤ 0x9f)
         else isCont b1) && isCont b2 && validUTF8F fuel rest2
      | _ => false
    else if 0xf0 ≤ b ∧ b ≤ 0xf4 then
      match rest with
      | b1 :: b2 :: b3 :: rest3 =>
        (if b = 0xf0 then decide (0x90 ≤ b1 ∧ b1 ≤ 0xbf)
         else if b = 0xf4 then decide (0x80 ≤ b1 ∧ b1 ≤ 0x8f)
         else isCont b1) && isCont b2 && isCont b3 && validUTF8F fuel rest3
      | _ => false
    else false

/-- Go `unicode/utf8.ValidString` on the byte sequence. -/
def validUTF8 (d : List Nat) : Bool := validUTF8F d.length d

/-- UTF-8 serialization of one rune, as performed by Go
`bytes.Buffer.WriteRune` / `unicode/utf8.EncodeRune`, for a nonnegative
rune value (the only use in the decoder is on a reconstructed codepoint,
which is nonnegative). Surrogates and values above `0x10FFFF` are
replaced by the encoding of `U+FFFD`, as in Go. -/
def utf8EncodeRune (cp : Nat) : List Nat :=
  if cp ≤ 0x7f then [cp]
  else if cp ≤ 0x7ff then [0xc0 ||| (cp >>> 6), 0x80 ||| (cp &&& 0x3f)]
  else if 0x10ffff < cp ∨ (0xd800 ≤ cp ∧ cp ≤ 0xdfff) then [0xef, 0xbf, 0xbd]
  else if cp ≤ 0xffff then
    [0xe0 ||| (cp >>> 12), 0x80 ||| ((cp >>> 6) &&& 0x3f), 0x80 ||| (cp &&& 0x3f)]
  else
    [0xf0 ||| (cp >>> 18), 0x80 ||| ((cp >>> 12) &&& 0x3f),
     0x80 ||| ((cp >>> 6) &&& 0x3f), 0x80 ||| (cp &&& 0x3f)]

/-- The bytes a Go string holds for a given rune sequence: each rune is
stored in standard UTF-8. Used to state what "the decoded string equals
`s`" means at the byte level. -/
def stringToUTF8 (s : List Int) : List Nat :=
  (s.map (fun r => utf8EncodeRune r.toNat)).flatten

/-- Body of the encoder loop of `Encode` (src/jutf.go lines 54-91): the
bytes emitted for one rune `r` of the input string. The final branch is
the out-of-range fallback, which writes the UTF-8 bytes of U+FFFD,
i.e. `0xEF 0xBF 0xBD`. -/
def encodeChar (r : Int) : List Nat :=
  let n := r.toNat
  if r = 0 then [0xc0, 0x80]
  else if 1 ≤ r ∧ r ≤ 0x7f then [n]
  else if 0x80 ≤ r ∧ r ≤ 0x7ff then
    [0xc0 ||| (n >>> 6), 0x80 ||| (n &&& 0x3f)]
  else if 0x800 ≤ r ∧ r ≤ 0xffff then
    [0xe0 ||| ((n >>> 12) &&& 0xf), 0x80 ||| ((n >>> 6) &&& 0x3f),
     0x80 ||| (n &&& 0x3f)]
  else if 0x10000 ≤ r ∧ r ≤ 0x10ffff then
    let r1 := ((n - 0x10000) >>> 10) + 0xd800
    let r2 := ((n - 0x10000) &&& 0x3ff) + 0xdc00
    [0xe0 ||| ((r1 >>> 12) &&& 0xf), 0x80 ||| ((r1 >>> 6) &&& 0x3f),
     0x80 ||| (r1 &&& 0x3f),
     0xe0 ||| ((r2 >>> 12) &&& 0xf), 0x80 ||| ((r2 >>> 6) &&& 0x3f),
     0x80 ||| (r2 &&& 0x3f)]
  else [0xef, 0xbf, 0xbd]

/-- The encoder `Encode` (src/jutf.go): the input string is consumed one
rune at a time (`for _, r := range s`) and each rune's bytes are
appended. -/
def Encode (s : List Int) : List Nat := (s.map encodeChar).flatten

/-- The decode error taxonomy of src/jutf.go
(`errInvalidNUL`, `errTooShort`, `errTooShortSurrogate`,
`errInvalidEncoding`). -/
inductive DecodeError where
  | InvalidNUL
  | UnexpectedEnd
  | UnexpectedEndSurrogate
  | InvalidEncoding
deriving DecidableEq

/-- The decoded value of a 3-byte sequence, as computed by the decoder
for each half of a surrogate pair (src/jutf.go lines 149-154):
`(b0 & 0xF) << 12 | (b1 & 0x3F) << 6 | (b2 & 0x3F)`. -/
def triple (b0 b1 b2 : Nat) : Nat :=
  (b0 &&& 0xf) <<< 12 ||| (b1 &&& 0x3f) <<< 6 ||| (b2 &&& 0x3f)

/-- One pass of the byte-grammar state machine of `Decode` (src/jutf.go
lines 106-171): the `for i := 0; i < len(d)` loop, written as recursion
on the unread suffix. Since every iteration of the Go loop consumes at
least one byte, the loop runs at most `len(d)` times; the recursion here
is driven by a `fuel` argument bounding the number of remaining
iterations, and `decodeLoop` below supplies `d.length`.
`decodeLoopF_congr` proves the result is the same for every sufficient
fuel, so the fuel-exhausted case (arbitrarily `InvalidEncoding`) is
unreachable. The Go expression
`0x10000 + ((c1 - 0xd800) << 10) | (c2 - 0xdc00)` groups as
`(0x10000 + ((c1 - 0xd800) << 10)) | (c2 - 0xdc00)` because `+` and `|`
share a precedence level in Go and associate left; the guard makes both
subtractions nonnegative, so `Nat` arithmetic is exact. -/
def decodeLoopF : Nat → List Nat → Except DecodeError (List Nat)
  | _, [] => .ok []
  | 0, _ :: _ => .error .InvalidEncoding
  | fuel + 1, b :: rest =>
    if b = 0 then .error .InvalidNUL
    else if b < 0x80 then (b :: ·) <$> decodeLoopF fuel rest
    else if b &&& 0xe0 = 0xc0 then
      match rest with
      | [] => .error .UnexpectedEnd
      | b1 :: rest1 =>
        if b = 0xc0 ∧ b1 = 0x80 then (0 :: ·) <$> decodeLoopF fuel rest1
        else (b :: b1 :: ·) <$> decodeLoopF fuel rest1
    else if b &&& 0xf0 = 0xe0 then
      match rest with
      | b1 :: b2 :: rest2 =>
        if b = 0xed ∧ 0xa0 ≤ b1 ∧ b1 ≤ 0xaf then
          match rest2 with
          | b3 :: b4 :: b5 :: rest5 =>
            if b3 = 0xed ∧ 0xb0 ≤ b4 ∧ b4 ≤ 0xbf then
              let c1 := triple b b1 b2
              let c2 := triple b3 b4 b5
              let cp := (0x10000 + ((c1 - 0xd800) <<< 10)) ||| (c2 - 0xdc00)
              (utf8EncodeRune cp ++ ·) <$> decodeLoopF fuel rest5
            else .error .InvalidEncoding
          | _ => .error .UnexpectedEndSurrogate
        else (b :: b1 :: b2 :: ·) <$> decodeLoopF fuel rest2
      | _ => .error .UnexpectedEnd
    else .error .InvalidEncoding

/-- The byte-grammar state machine of `Decode` on a byte sequence. -/
def decodeLoop (d : List Nat) : Except DecodeError (List Nat) :=
  decodeLoopF d.length d

/-- The decoder `Decode` (src/jutf.go lines 97-172): the fast path
returns the input verbatim when it is already valid standard UTF-8;
otherwise the byte grammar state machine runs. -/
def Decode (d : List Nat) : Except DecodeError (List Nat) :=
  if validUTF8 d then .ok d else decodeLoop d

instance : DecidableEq (Except DecodeError (List Nat))
  | .ok a, .ok b =>
    if h : a = b then isTrue (congrArg Except.ok h)
    else isFalse (fun he => h (Except.ok.inj he))
  | .error a, .error b =>
    if h : a = b then isTrue (congrArg Except.error h)
    else isFalse (fun he => h (Except.error.inj he))
  | .ok _, .error _ => isFalse (fun he => Except.noConfusion he)
  | .error _, .ok _ => isFalse (fun he => Except.noConfusion he)

/-- A Unicode scalar value: in `[0, 0x10FFFF]` and not a surrogate. -/
def Scalar (r : Int) : Prop := 0 ≤ r ∧ r ≤ 0x10ffff ∧ ¬(0xd800 ≤ r ∧ r ≤ 0xdfff)

instance (r : Int) : Decidable (Scalar r) := by unfold Scalar; infer_instance

/-- The ordinary 3-byte encoding rule of the encoder (src/jutf.go lines
67-72), applied to a standalone 16-bit value; the encoder applies the
same formula to each half of a surrogate pair. -/
def enc3 (n : Nat) : List Nat :=
  [0xe0 ||| ((n >>> 12) &&& 0xf), 0x80 ||| ((n >>> 6) &&& 0x3f),
   0x80 ||| (n &&& 0x3f)]

/-- The standard UTF-8 byte encoding of a codepoint below 0x10000, by
the usual formulas: one byte for values up to 0x7F, the 2-byte form
`0xC0|(cp>>6), 0x80|(cp&0x3F)` up to 0x7FF, and the 3-byte form
otherwise. This is the comparison point the spec's "identity below
0x10000" property refers to. -/
def stdUTF8 (n : Nat) : List Nat :=
  if n ≤ 0x7f then [n]
  else if n ≤ 0x7ff then [0xc0 ||| (n >>> 6), 0x80 ||| (n &&& 0x3f)]
  else [0xe0 ||| (n >>> 12), 0x80 ||| ((n >>> 6) &&& 0x3f),
    0x80 ||| (n &&& 0x3f)]

/-!
Arithmetic lemmas turning the bit operations of the code into `/`, `%`
and `+`, so that `omega` can reason about them.
-/

theorem or_eq_add_of_mod_eq_zero (a b n : Nat) (ha : a % 2 ^ n = 0)
    (hb : b < 2 ^ n) : a ||| b = a + b := by
  obtain ⟨q, rfl⟩ := Nat.dvd_of_mod_eq_zero ha
  apply Nat.eq_of_testBit_eq
  intro j
  rw [Nat.testBit_or, Nat.testBit_mul_pow_two_add q hb j,
    Nat.testBit_mul_pow_two]
  by_cases h : j < n
  · simp [h, Nat.not_le_of_lt h]
  · have hbj : b.testBit j = false := by
      apply Nat.testBit_lt_two_pow
      exact lt_of_lt_of_le hb (Nat.pow_le_pow_right (by norm_num) (Nat.le_of_not_lt h))
    simp [h, Nat.le_of_not_lt h, hbj]

theorem and_0x3f (x : Nat) : x &&& 0x3f = x % 0x40 := by
  have h := Nat.and_pow_two_sub_one_eq_mod x 6
  norm_num at h
  exact h

theorem and_0xf (x : Nat) : x &&& 0xf = x % 0x10 := by
  have h := Nat.and_pow_two_sub_one_eq_mod x 4
  norm_num at h
  exact h

theorem and_0x3ff (x : Nat) : x &&& 0x3ff = x % 0x400 := by
  have h := Nat.and_pow_two_sub_one_eq_mod x 10
  norm_num at h
  exact h

theorem shr_eq_div (x n : Nat) : x >>> n = x / 2 ^ n :=
  Nat.shiftRight_eq_div_pow x n

theorem or_add_pow (a b n m : Nat) (hm : 2 ^ n = m) (ha : a % m = 0)
    (hb : b < m) : a ||| b = a + b := by
  subst hm; exact or_eq_add_of_mod_eq_zero a b n ha hb

theorem triple_eq (b0 b1 b2 : Nat) :
    triple b0 b1 b2 = (b0 % 0x10) * 0x1000 + (b1 % 0x40) * 0x40 + b2 % 0x40 := by
  unfold triple
  rw [and_0xf, and_0x3f, and_0x3f, Nat.shiftLeft_eq, Nat.shiftLeft_eq]
  have e12 : (2 : Nat) ^ 12 = 0x1000 := by norm_num
  have e6 : (2 : Nat) ^ 6 = 0x40 := by norm_num
  rw [e12, e6]
  have h1 : b0 % 0x10 * 0x1000 ||| b1 % 0x40 * 0x40 =
      b0 % 0x10 * 0x1000 + b1 % 0x40 * 0x40 :=
    or_add_pow _ _ 12 0x1000 (by norm_num) (by omega) (by omega)
  rw [h1, or_add_pow _ _ 6 0x40 (by norm_num) (by omega) (by omega)]

/-!
Closed arithmetic forms for the bytes each `encodeChar` branch emits.
-/

theorem encodeChar_nul : encodeChar 0 = [0xc0, 0x80] := rfl

theorem encodeChar_ascii (r : Int) (h1 : 1 ≤ r) (h2 : r ≤ 0x7f) :
    encodeChar r = [r.toNat] := by
  unfold encodeChar
  rw [if_neg (by omega), if_pos ⟨h1, h2⟩]

theorem encodeChar_two (r : Int) (h1 : 0x80 ≤ r) (h2 : r ≤ 0x7ff) :
    encodeChar r = [0xc0 + r.toNat / 0x40, 0x80 + r.toNat % 0x40] := by
  unfold encodeChar
  rw [if_neg (by omega), if_neg (by omega), if_pos ⟨h1, h2⟩]
  rw [shr_eq_div, and_0x3f]
  have e6 : (2 : Nat) ^ 6 = 0x40 := by norm_num
  rw [e6, or_add_pow _ _ 6 0x40 (by norm_num) (by omega) (by omega),
    or_add_pow _ _ 6 0x40 (by norm_num) (by omega) (by omega)]

theorem encodeChar_three (r : Int) (h1 : 0x800 ≤ r) (h2 : r ≤ 0xffff) :
    encodeChar r = [0xe0 + r.toNat / 0x1000, 0x80 + r.toNat / 0x40 % 0x40,
      0x80 + r.toNat % 0x40] := by
  unfold encodeChar
  rw [if_neg (by omega), if_neg (by omega), if_neg (by omega), if_pos ⟨h1, h2⟩]
  rw [shr_eq_div, shr_eq_div, and_0xf, and_0x3f, and_0x3f]
  have e12 : (2 : Nat) ^ 12 = 0x1000 := by norm_num
  have e6 : (2 : Nat) ^ 6 = 0x40 := by norm_num
  rw [e12, e6,
    or_add_pow _ _ 5 0x20 (by norm_num) (by omega) (by omega),
    or_add_pow _ _ 6 0x40 (by norm_num) (by omega) (by omega),
    or_add_pow _ _ 6 0x40 (by norm_num) (by omega) (by omega)]
  have hn : r.toNat ≤ 0xffff := by omega
  simp only [List.cons.injEq, and_true]
  omega

theorem encodeChar_supp (r : Int) (h1 : 0x10000 ≤ r) (h2 : r ≤ 0x10ffff) :
    encodeChar r =
      [0xed, 0xa0 + (r.toNat - 0x10000) / 0x400 / 0x40,
       0x80 + (r.toNat - 0x10000) / 0x400 % 0x40,
       0xed, 0xb0 + (r.toNat - 0x10000) % 0x400 / 0x40,
       0x80 + (r.toNat - 0x10000) % 0x400 % 0x40] := by
  unfold encodeChar
  rw [if_neg (by omega), if_neg (by omega), if_neg (by omega),
    if_neg (by omega), if_pos ⟨h1, h2⟩]
  dsimp only
  rw [shr_eq_div, and_0x3ff]
  rw [shr_eq_div, shr_eq_div, shr_eq_div, shr_eq_div,
    and_0xf, and_0xf, and_0x3f, and_0x3f, and_0x3f, and_0x3f]
  have e12 : (2 : Nat) ^ 12 = 0x1000 := by norm_num
  have e10 : (2 : Nat) ^ 10 = 0x400 := by norm_num
  have e6 : (2 : Nat) ^ 6 = 0x40 := by norm_num
  rw [e12, e10, e6]
  rw [or_add_pow _ _ 5 0x20 (by norm_num) (by omega) (by omega),
    or_add_pow _ _ 6 0x40 (by norm_num) (by omega) (by omega),
    or_add_pow _ _ 6 0x40 (by norm_num) (by omega) (by omega),
    or_add_pow _ _ 5 0x20 (by norm_num) (by omega) (by omega),
    or_add_pow _ _ 6 0x40 (by norm_num) (by omega) (by omega),
    or_add_pow _ _ 6 0x40 (by norm_num) (by omega) (by omega)]
  have hn1 : 0x10000 ≤ r.toNat := by omega
  have hn2 : r.toNat ≤ 0x10ffff := by omega
  simp only [List.cons.injEq, and_true]
  refine ⟨by omega, by omega, by omega, by omega, by omega, by omega⟩

theorem encodeChar_replacement (r : Int) (h : r < 0 ∨ 0x10ffff < r) :
    encodeChar r = [0xef, 0xbf, 0xbd] := by
  unfold encodeChar
  rw [if_neg (by omega), if_neg (by omega), if_neg (by omega),
    if_neg (by omega), if_neg (by omega)]

/-!
Closed arithmetic forms for `utf8EncodeRune`.
-/

theorem utf8EncodeRune_ascii (cp : Nat) (h : cp ≤ 0x7f) :
    utf8EncodeRune cp = [cp] := by
  unfold utf8EncodeRune
  rw [if_pos h]

theorem utf8EncodeRune_two (cp : Nat) (h1 : 0x80 ≤ cp) (h2 : cp ≤ 0x7ff) :
    utf8EncodeRune cp = [0xc0 + cp / 0x40, 0x80 + cp % 0x40] := by
  unfold utf8EncodeRune
  rw [if_neg (by omega), if_pos h2]
  rw [shr_eq_div, and_0x3f]
  have e6 : (2 : Nat) ^ 6 = 0x40 := by norm_num
  rw [e6, or_add_pow _ _ 6 0x40 (by norm_num) (by omega) (by omega),
    or_add_pow _ _ 6 0x40 (by norm_num) (by omega) (by omega)]

theorem utf8EncodeRune_three (cp : Nat) (h1 : 0x800 ≤ cp) (h2 : cp ≤ 0xffff)
    (h3 : ¬(0xd800 ≤ cp ∧ cp ≤ 0xdfff)) :
    utf8EncodeRune cp = [0xe0 + cp / 0x1000, 0x80 + cp / 0x40 % 0x40,
      0x80 + cp % 0x40] := by
  unfold utf8EncodeRune
  rw [if_neg (by omega), if_neg (by omega), if_neg (by omega), if_pos h2]
  rw [shr_eq_div, shr_eq_div, and_0x3f, and_0x3f]
  have e12 : (2 : Nat) ^ 12 = 0x1000 := by norm_num
  have e6 : (2 : Nat) ^ 6 = 0x40 := by norm_num
  rw [e12, e6,
    or_add_pow _ _ 5 0x20 (by norm_num) (by omega) (by omega),
    or_add_pow _ _ 6 0x40 (by norm_num) (by omega) (by omega),
    or_add_pow _ _ 6 0x40 (by norm_num) (by omega) (by omega)]

theorem utf8EncodeRune_four (cp : Nat) (h1 : 0x10000 ≤ cp)
    (h2 : cp ≤ 0x10ffff) :
    utf8EncodeRune cp = [0xf0 + cp / 0x40000, 0x80 + cp / 0x1000 % 0x40,
      0x80 + cp / 0x40 % 0x40, 0x80 + cp % 0x40] := by
  unfold utf8EncodeRune
  rw [if_neg (by omega), if_neg (by omega), if_neg (by omega),
    if_neg (by omega)]
  rw [shr_eq_div, shr_eq_div, shr_eq_div, and_0x3f, and_0x3f, and_0x3f]
  have e18 : (2 : Nat) ^ 18 = 0x40000 := by norm_num
  have e12 : (2 : Nat) ^ 12 = 0x1000 := by norm_num
  have e6 : (2 : Nat) ^ 6 = 0x40 := by norm_num
  rw [e18, e12, e6,
    or_add_pow _ _ 4 0x10 (by norm_num) (by omega) (by omega),
    or_add_pow _ _ 6 0x40 (by norm_num) (by omega) (by omega),
    or_add_pow _ _ 6 0x40 (by norm_num) (by omega) (by omega),
    or_add_pow _ _ 6 0x40 (by norm_num) (by omega) (by omega)]

/-!
Facts about the lead-byte classification tests and
one lemma per branch of the state machine.
-/


set_option maxRecDepth 100000 in
theorem land_e0_of_lt : ∀ b < 0x80, b &&& 0xe0 ≠ 0xc0 := by decide

set_option maxRecDepth 100000 in
theorem land_f0_of_lt : ∀ b < 0x80, b &&& 0xf0 ≠ 0xe0 := by decide

set_option maxRecDepth 100000 in
theorem land_e0_of_range : ∀ b < 0xe0, 0xc2 ≤ b → b &&& 0xe0 = 0xc0 := by decide

set_option maxRecDepth 100000 in
theorem land_f0_of_range : ∀ b < 0xf0, 0xe0 ≤ b → b &&& 0xf0 = 0xe0 := by decide

theorem land_e0_ne_of_land_f0 (b : Nat) (h : b &&& 0xf0 = 0xe0) :
    b &&& 0xe0 ≠ 0xc0 := by
  intro hc
  have h1 : (b &&& 0xf0).testBit 5 = true := by rw [h]; decide
  have h2 : (b &&& 0xe0).testBit 5 = false := by rw [hc]; decide
  rw [Nat.testBit_and] at h1 h2
  have e1 : Nat.testBit 0xf0 5 = true := by decide
  have e2 : Nat.testBit 0xe0 5 = true := by decide
  rw [e1, Bool.and_true] at h1
  rw [e2, Bool.and_true] at h2
  rw [h1] at h2
  exact Bool.noConfusion h2

theorem land_e0_pos (b : Nat) (h : b &&& 0xe0 = 0xc0) : b ≠ 0 ∧ ¬b < 0x80 := by
  constructor
  · intro h0; subst h0; exact absurd h (by decide)
  · intro hlt; exact land_e0_of_lt b hlt h

theorem land_f0_pos (b : Nat) (h : b &&& 0xf0 = 0xe0) :
    b ≠ 0 ∧ ¬b < 0x80 ∧ b &&& 0xe0 ≠ 0xc0 := by
  refine ⟨?_, ?_, land_e0_ne_of_land_f0 b h⟩
  · intro h0; subst h0; exact absurd h (by decide)
  · intro hlt; exact land_f0_of_lt b hlt h

theorem decodeLoopF_congr : ∀ (fuel fuel' : Nat) (d : List Nat),
    d.length ≤ fuel → d.length ≤ fuel' →
    decodeLoopF fuel d = decodeLoopF fuel' d := by
  intro fuel
  induction fuel with
  | zero =>
    intro fuel' d h h'
    have hd : d = [] := List.eq_nil_of_length_eq_zero (Nat.le_zero.mp h)
    subst hd
    cases fuel' <;> rfl
  | succ k ih =>
    intro fuel' d h h'
    cases d with
    | nil => cases fuel' <;> rfl
    | cons b rest =>
      cases fuel' with
      | zero => simp at h'
      | succ k' =>
        have hr : rest.length ≤ k := by simp at h; omega
        have hr' : rest.length ≤ k' := by simp at h'; omega
        simp only [decodeLoopF]
        by_cases h0 : b = 0
        · simp only [if_pos h0]
        · simp only [if_neg h0]
          by_cases h1 : b < 0x80
          · simp only [if_pos h1, ih k' rest hr hr']
          · simp only [if_neg h1]
            by_cases h2 : b &&& 0xe0 = 0xc0
            · simp only [if_pos h2]
              cases rest with
              | nil => rfl
              | cons b1 rest1 =>
                have hr1 : rest1.length ≤ k := by simp at h; omega
                have hr1' : rest1.length ≤ k' := by simp at h'; omega
                dsimp only
                by_cases hn : b = 0xc0 ∧ b1 = 0x80
                · simp only [if_pos hn, ih k' rest1 hr1 hr1']
                · simp only [if_neg hn, ih k' rest1 hr1 hr1']
            · simp only [if_neg h2]
              by_cases h3 : b &&& 0xf0 = 0xe0
              · simp only [if_pos h3]
                cases rest with
                | nil => rfl
                | cons b1 rest1 =>
                  cases rest1 with
                  | nil => rfl
                  | cons b2 rest2 =>
                    have hr2 : rest2.length ≤ k := by simp at h; omega
                    have hr2' : rest2.length ≤ k' := by simp at h'; omega
                    dsimp only
                    by_cases hs : b = 0xed ∧ 0xa0 ≤ b1 ∧ b1 ≤ 0xaf
                    · simp only [if_pos hs]
                      cases rest2 with
                      | nil => rfl
                      | cons b3 rest3 =>
                        cases rest3 with
                        | nil => rfl
                        | cons b4 rest4 =>
                          cases rest4 with
                          | nil => rfl
                          | cons b5 rest5 =>
                            have hr5 : rest5.length ≤ k := by simp at h; omega
                            have hr5' : rest5.length ≤ k' := by simp at h'; omega
                            dsimp only
                            by_cases hl : b3 = 0xed ∧ 0xb0 ≤ b4 ∧ b4 ≤ 0xbf
                            · simp only [if_pos hl, ih k' rest5 hr5 hr5']
                            · simp only [if_neg hl]
                    · simp only [if_neg hs, ih k' rest2 hr2 hr2']
              · simp only [if_neg h3]

theorem decodeLoop_eq_F (d : List Nat) (fuel : Nat) (h : d.length ≤ fuel) :
    decodeLoop d = decodeLoopF fuel d :=
  decodeLoopF_congr d.length fuel d le_rfl h

theorem validUTF8F_congr : ∀ (fuel fuel' : Nat) (d : List Nat),
    d.length ≤ fuel → d.length ≤ fuel' →
    validUTF8F fuel d = validUTF8F fuel' d := by
  intro fuel
  induction fuel with
  | zero =>
    intro fuel' d h h'
    have hd : d = [] := List.eq_nil_of_length_eq_zero (Nat.le_zero.mp h)
    subst hd
    cases fuel' <;> rfl
  | succ k ih =>
    intro fuel' d h h'
    cases d with
    | nil => cases fuel' <;> rfl
    | cons b rest =>
      cases fuel' with
      | zero => simp at h'
      | succ k' =>
        have hr : rest.length ≤ k := by simp at h; omega
        have hr' : rest.length ≤ k' := by simp at h'; omega
        simp only [validUTF8F]
        by_cases h1 : b < 0x80
        · simp only [if_pos h1, ih k' rest hr hr']
        · simp only [if_neg h1]
          by_cases h2 : 0xc2 ≤ b ∧ b ≤ 0xdf
          · simp only [if_pos h2]
            cases rest with
            | nil => rfl
            | cons b1 rest1 =>
              have hr1 : rest1.length ≤ k := by simp at h; omega
              have hr1' : rest1.length ≤ k' := by simp at h'; omega
              simp only [ih k' rest1 hr1 hr1']
          · simp only [if_neg h2]
            by_cases h3 : 0xe0 ≤ b ∧ b ≤ 0xef
            · simp only [if_pos h3]
              cases rest with
              | nil => rfl
              | cons b1 rest1 =>
                cases rest1 with
                | nil => rfl
                | cons b2 rest2 =>
                  have hr2 : rest2.length ≤ k := by simp at h; omega
                  have hr2' : rest2.length ≤ k' := by simp at h'; omega
                  simp only [ih k' rest2 hr2 hr2']
            · simp only [if_neg h3]
              by_cases h4 : 0xf0 ≤ b ∧ b ≤ 0xf4
              · simp only [if_pos h4]
                cases rest with
                | nil => rfl
                | cons b1 rest1 =>
                  cases rest1 with
                  | nil => rfl
                  | cons b2 rest2 =>
                    cases rest2 with
                    | nil => rfl
                    | cons b3 rest3 =>
                      have hr3 : rest3.length ≤ k := by simp at h; omega
                      have hr3' : rest3.length ≤ k' := by simp at h'; omega
                      simp only [ih k' rest3 hr3 hr3']
              · simp only [if_neg h4]

/-!
Chunk-level facts about the standard validity scan.
-/

theorem validUTF8_ascii (b : Nat) (rest : List Nat) (h : b < 0x80) :
    validUTF8 (b :: rest) = validUTF8 rest := by
  show validUTF8F (rest.length + 1) (b :: rest) = _
  simp only [validUTF8F]
  rw [if_pos h]
  rfl

theorem validUTF8_two (b b1 : Nat) (rest : List Nat) (h1 : 0xc2 ≤ b)
    (h2 : b ≤ 0xdf) :
    validUTF8 (b :: b1 :: rest) = (isCont b1 && validUTF8 rest) := by
  show validUTF8F (rest.length + 2) (b :: b1 :: rest) = _
  simp only [validUTF8F]
  rw [if_neg (by omega), if_pos ⟨h1, h2⟩,
    validUTF8F_congr (rest.length + 1) rest.length rest (by omega) le_rfl]
  rfl

theorem validUTF8_three (b b1 b2 : Nat) (rest : List Nat) (h1 : 0xe0 ≤ b)
    (h2 : b ≤ 0xef) :
    validUTF8 (b :: b1 :: b2 :: rest) =
      ((if b = 0xe0 then decide (0xa0 ≤ b1 ∧ b1 ≤ 0xbf)
        else if b = 0xed then decide (0x80 ≤ b1 ∧ b1 ≤ 0x9f)
        else isCont b1) && isCont b2 && validUTF8 rest) := by
  show validUTF8F (rest.length + 3) (b :: b1 :: b2 :: rest) = _
  simp only [validUTF8F]
  rw [if_neg (by omega), if_neg (by omega), if_pos ⟨h1, h2⟩,
    validUTF8F_congr (rest.length + 2) rest.length rest (by omega) le_rfl]
  rfl

theorem validUTF8_c0 (rest : List Nat) : validUTF8 (0xc0 :: rest) = false := by
  show validUTF8F (rest.length + 1) (0xc0 :: rest) = _
  simp only [validUTF8F]
  rw [if_neg (by omega), if_neg (by omega), if_neg (by omega),
    if_neg (by omega)]

/-!
One lemma per branch of the state machine.
-/

theorem decodeLoop_nil : decodeLoop [] = .ok [] := rfl

theorem decodeLoop_nul (rest : List Nat) :
    decodeLoop (0 :: rest) = .error .InvalidNUL := by
  show decodeLoopF (rest.length + 1) (0 :: rest) = _
  simp [decodeLoopF]

theorem decodeLoop_ascii (b : Nat) (rest : List Nat) (h0 : b ≠ 0)
    (h1 : b < 0x80) :
    decodeLoop (b :: rest) = (b :: ·) <$> decodeLoop rest := by
  show decodeLoopF (rest.length + 1) (b :: rest) = _
  simp only [decodeLoopF]
  rw [if_neg h0, if_pos h1]
  rfl

theorem decodeLoop_overlong_nul (rest : List Nat) :
    decodeLoop (0xc0 :: 0x80 :: rest) = (0 :: ·) <$> decodeLoop rest := by
  show decodeLoopF (rest.length + 2) (0xc0 :: 0x80 :: rest) = _
  simp only [decodeLoopF]
  rw [if_neg (by decide), if_neg (by decide), if_pos (by decide)]
  rw [if_pos (show _ ∧ _ from ⟨by simp, by simp⟩),
    decodeLoopF_congr (rest.length + 1) rest.length rest (by omega) le_rfl]
  rfl

theorem decodeLoop_two_copy (b b1 : Nat) (rest : List Nat)
    (hb : b &&& 0xe0 = 0xc0) (hn : ¬(b = 0xc0 ∧ b1 = 0x80)) :
    decodeLoop (b :: b1 :: rest) = (b :: b1 :: ·) <$> decodeLoop rest := by
  obtain ⟨h0, h1⟩ := land_e0_pos b hb
  show decodeLoopF (rest.length + 2) (b :: b1 :: rest) = _
  simp only [decodeLoopF]
  rw [if_neg h0, if_neg h1, if_pos hb]
  rw [if_neg hn,
    decodeLoopF_congr (rest.length + 1) rest.length rest (by omega) le_rfl]
  rfl

theorem decodeLoop_two_short (b : Nat) (hb : b &&& 0xe0 = 0xc0) :
    decodeLoop [b] = .error .UnexpectedEnd := by
  obtain ⟨h0, h1⟩ := land_e0_pos b hb
  show decodeLoopF 1 [b] = _
  simp only [decodeLoopF]
  rw [if_neg h0, if_neg h1, if_pos hb]

theorem decodeLoop_three_copy (b b1 b2 : Nat) (rest : List Nat)
    (hb : b &&& 0xf0 = 0xe0) (hn : ¬(b = 0xed ∧ 0xa0 ≤ b1 ∧ b1 ≤ 0xaf)) :
    decodeLoop (b :: b1 :: b2 :: rest) =
      (b :: b1 :: b2 :: ·) <$> decodeLoop rest := by
  obtain ⟨h0, h1, h2⟩ := land_f0_pos b hb
  show decodeLoopF (rest.length + 3) (b :: b1 :: b2 :: rest) = _
  simp only [decodeLoopF]
  rw [if_neg h0, if_neg h1, if_neg h2, if_pos hb]
  rw [if_neg hn,
    decodeLoopF_congr (rest.length + 2) rest.length rest (by omega) le_rfl]
  rfl

theorem decodeLoop_three_short1 (b : Nat) (hb : b &&& 0xf0 = 0xe0) :
    decodeLoop [b] = .error .UnexpectedEnd := by
  obtain ⟨h0, h1, h2⟩ := land_f0_pos b hb
  show decodeLoopF 1 [b] = _
  simp only [decodeLoopF]
  rw [if_neg h0, if_neg h1, if_neg h2, if_pos hb]

theorem decodeLoop_three_short2 (b b1 : Nat) (hb : b &&& 0xf0 = 0xe0) :
    decodeLoop [b, b1] = .error .UnexpectedEnd := by
  obtain ⟨h0, h1, h2⟩ := land_f0_pos b hb
  show decodeLoopF 2 [b, b1] = _
  simp only [decodeLoopF]
  rw [if_neg h0, if_neg h1, if_neg h2, if_pos hb]

theorem decodeLoop_surr_short (b1 b2 : Nat) (rest : List Nat)
    (ha1 : 0xa0 ≤ b1) (ha2 : b1 ≤ 0xaf) (hlen : rest.length < 3) :
    decodeLoop (0xed :: b1 :: b2 :: rest) = .error .UnexpectedEndSurrogate := by
  show decodeLoopF (rest.length + 3) (0xed :: b1 :: b2 :: rest) = _
  simp only [decodeLoopF]
  rw [if_neg (by decide), if_neg (by decide), if_neg (by decide),
    if_pos (by decide)]
  rw [if_pos (show _ ∧ _ from ⟨by simp, ha1, ha2⟩)]
  match rest with
  | [] => rfl
  | [x] => rfl
  | [x, y] => rfl
  | x :: y :: z :: t => exact absurd hlen (by simp)

theorem decodeLoop_surr_bad (b1 b2 b3 b4 b5 : Nat) (rest : List Nat)
    (ha1 : 0xa0 ≤ b1) (ha2 : b1 ≤ 0xaf)
    (hn : ¬(b3 = 0xed ∧ 0xb0 ≤ b4 ∧ b4 ≤ 0xbf)) :
    decodeLoop (0xed :: b1 :: b2 :: b3 :: b4 :: b5 :: rest) =
      .error .InvalidEncoding := by
  show decodeLoopF (rest.length + 6) (0xed :: b1 :: b2 :: b3 :: b4 :: b5 :: rest) = _
  simp only [decodeLoopF]
  rw [if_neg (by decide), if_neg (by decide), if_neg (by decide),
    if_pos (by decide)]
  rw [if_pos (show _ ∧ _ from ⟨by simp, ha1, ha2⟩), if_neg hn]

theorem decodeLoop_surr (b1 b2 b4 b5 : Nat) (rest : List Nat)
    (ha1 : 0xa0 ≤ b1) (ha2 : b1 ≤ 0xaf) (hb1 : 0xb0 ≤ b4) (hb2 : b4 ≤ 0xbf) :
    decodeLoop (0xed :: b1 :: b2 :: 0xed :: b4 :: b5 :: rest) =
      (utf8EncodeRune (0x10000 + (triple 0xed b1 b2 - 0xd800) * 0x400 +
        (triple 0xed b4 b5 - 0xdc00)) ++ ·) <$> decodeLoop rest := by
  show decodeLoopF (rest.length + 6) (0xed :: b1 :: b2 :: 0xed :: b4 :: b5 :: rest) = _
  simp only [decodeLoopF]
  rw [if_neg (by decide), if_neg (by decide), if_neg (by decide),
    if_pos (by decide)]
  rw [if_pos (show _ ∧ _ from ⟨by simp, ha1, ha2⟩),
    if_pos (show _ ∧ _ from ⟨by simp, hb1, hb2⟩)]
  have he1 := triple_eq 0xed b1 b2
  have he2 := triple_eq 0xed b4 b5
  have hcp : (0x10000 + ((triple 0xed b1 b2 - 0xd800) <<< 10)) |||
      (triple 0xed b4 b5 - 0xdc00) =
      0x10000 + (triple 0xed b1 b2 - 0xd800) * 0x400 +
        (triple 0xed b4 b5 - 0xdc00) := by
    rw [Nat.shiftLeft_eq]
    have e10 : (2 : Nat) ^ 10 = 0x400 := by norm_num
    rw [e10]
    exact or_add_pow _ _ 10 0x400 (by norm_num) (by omega) (by omega)
  rw [hcp,
    decodeLoopF_congr (rest.length + 5) rest.length rest (by omega) le_rfl]
  rfl

/-!
The decoder inverts the encoder one codepoint at a time.
-/

theorem decodeLoop_encodeChar (r : Int) (h : Scalar r) (t : List Nat) :
    decodeLoop (encodeChar r ++ t) =
      (utf8EncodeRune r.toNat ++ ·) <$> decodeLoop t := by
  obtain ⟨hge, hle, hns⟩ := h
  have hsur : r < 0xd800 ∨ 0xdfff < r := by
    rcases not_and_or.mp hns with hx | hx
    · exact Or.inl (by omega)
    · exact Or.inr (by omega)
  by_cases h0 : r = 0
  · subst h0
    rw [encodeChar_nul]
    rw [show ([0xc0, 0x80] : List Nat) ++ t = 0xc0 :: 0x80 :: t from rfl]
    rw [decodeLoop_overlong_nul]
    rfl
  · by_cases ha : r ≤ 0x7f
    · rw [encodeChar_ascii r (by omega) ha]
      rw [show [r.toNat] ++ t = r.toNat :: t from rfl]
      rw [decodeLoop_ascii _ _ (by omega) (by omega)]
      rw [utf8EncodeRune_ascii _ (by omega)]
      rfl
    · by_cases h2 : r ≤ 0x7ff
      · rw [encodeChar_two r (by omega) h2]
        rw [show [0xc0 + r.toNat / 0x40, 0x80 + r.toNat % 0x40] ++ t =
          (0xc0 + r.toNat / 0x40) :: (0x80 + r.toNat % 0x40) :: t from rfl]
        rw [decodeLoop_two_copy _ _ _
          (land_e0_of_range _ (by omega) (by omega)) (by omega)]
        rw [utf8EncodeRune_two _ (by omega) (by omega)]
        rfl
      · by_cases h3 : r ≤ 0xffff
        · rw [encodeChar_three r (by omega) h3]
          rw [show [0xe0 + r.toNat / 0x1000, 0x80 + r.toNat / 0x40 % 0x40,
            0x80 + r.toNat % 0x40] ++ t = (0xe0 + r.toNat / 0x1000) ::
            (0x80 + r.toNat / 0x40 % 0x40) :: (0x80 + r.toNat % 0x40) :: t
            from rfl]
          rw [decodeLoop_three_copy _ _ _ _
            (land_f0_of_range _ (by omega) (by omega)) (by omega)]
          rw [utf8EncodeRune_three _ (by omega) (by omega) (by omega)]
          rfl
        · rw [encodeChar_supp r (by omega) hle]
          rw [show [0xed, 0xa0 + (r.toNat - 0x10000) / 0x400 / 0x40,
            0x80 + (r.toNat - 0x10000) / 0x400 % 0x40,
            0xed, 0xb0 + (r.toNat - 0x10000) % 0x400 / 0x40,
            0x80 + (r.toNat - 0x10000) % 0x400 % 0x40] ++ t =
            0xed :: (0xa0 + (r.toNat - 0x10000) / 0x400 / 0x40) ::
            (0x80 + (r.toNat - 0x10000) / 0x400 % 0x40) ::
            0xed :: (0xb0 + (r.toNat - 0x10000) % 0x400 / 0x40) ::
            (0x80 + (r.toNat - 0x10000) % 0x400 % 0x40) :: t from rfl]
          rw [decodeLoop_surr _ _ _ _ _ (by omega) (by omega) (by omega)
            (by omega)]
          rw [show 0x10000 +
              (triple 0xed (0xa0 + (r.toNat - 0x10000) / 0x400 / 0x40)
                (0x80 + (r.toNat - 0x10000) / 0x400 % 0x40) - 0xd800) * 0x400 +
              (triple 0xed (0xb0 + (r.toNat - 0x10000) % 0x400 / 0x40)
                (0x80 + (r.toNat - 0x10000) % 0x400 % 0x40) - 0xdc00) =
              r.toNat by rw [triple_eq, triple_eq]; omega]

theorem Encode_cons (r : Int) (s : List Int) :
    Encode (r :: s) = encodeChar r ++ Encode s := by
  simp [Encode]

theorem stringToUTF8_cons (r : Int) (s : List Int) :
    stringToUTF8 (r :: s) = utf8EncodeRune r.toNat ++ stringToUTF8 s := by
  simp [stringToUTF8]

theorem decodeLoop_Encode (s : List Int) (h : ∀ r ∈ s, Scalar r) :
    decodeLoop (Encode s) = .ok (stringToUTF8 s) := by
  induction s with
  | nil => rfl
  | cons r s ih =>
    have hr : Scalar r := h r (by simp)
    have hs : ∀ x ∈ s, Scalar x := fun x hx => h x (by simp [hx])
    rw [Encode_cons, decodeLoop_encodeChar r hr (Encode s), ih hs,
      stringToUTF8_cons]
    rfl

/-!
When the output of the encoder happens to be valid standard UTF-8, it
coincides with the plain UTF-8 serialization of the input, so the
decoder fast path also returns the right bytes.
-/

theorem validUTF8_encodeChar (r : Int) (h : Scalar r) (t : List Nat)
    (hv : validUTF8 (encodeChar r ++ t) = true) :
    encodeChar r = utf8EncodeRune r.toNat ∧ validUTF8 t = true := by
  obtain ⟨hge, hle, hns⟩ := h
  have hsur : r < 0xd800 ∨ 0xdfff < r := by
    rcases not_and_or.mp hns with hx | hx
    · exact Or.inl (by omega)
    · exact Or.inr (by omega)
  by_cases h0 : r = 0
  · subst h0
    rw [encodeChar_nul] at hv
    rw [show ([0xc0, 0x80] : List Nat) ++ t = 0xc0 :: 0x80 :: t from rfl,
      validUTF8_c0] at hv
    exact Bool.noConfusion hv
  · by_cases ha : r ≤ 0x7f
    · rw [encodeChar_ascii r (by omega) ha] at hv ⊢
      rw [show [r.toNat] ++ t = r.toNat :: t from rfl,
        validUTF8_ascii _ _ (by omega)] at hv
      exact ⟨(utf8EncodeRune_ascii _ (by omega)).symm, hv⟩
    · by_cases h2 : r ≤ 0x7ff
      · rw [encodeChar_two r (by omega) h2] at hv ⊢
        rw [show [0xc0 + r.toNat / 0x40, 0x80 + r.toNat % 0x40] ++ t =
          (0xc0 + r.toNat / 0x40) :: (0x80 + r.toNat % 0x40) :: t from rfl,
          validUTF8_two _ _ _ (by omega) (by omega)] at hv
        simp only [Bool.and_eq_true] at hv
        exact ⟨(utf8EncodeRune_two _ (by omega) (by omega)).symm, hv.2⟩
      · by_cases h3 : r ≤ 0xffff
        · rw [encodeChar_three r (by omega) h3] at hv ⊢
          rw [show [0xe0 + r.toNat / 0x1000, 0x80 + r.toNat / 0x40 % 0x40,
            0x80 + r.toNat % 0x40] ++ t = (0xe0 + r.toNat / 0x1000) ::
            (0x80 + r.toNat / 0x40 % 0x40) :: (0x80 + r.toNat % 0x40) :: t
            from rfl,
            validUTF8_three _ _ _ _ (by omega) (by omega)] at hv
          simp only [Bool.and_eq_true] at hv
          exact ⟨(utf8EncodeRune_three _ (by omega) (by omega)
            (by omega)).symm, hv.2⟩
        · rw [encodeChar_supp r (by omega) hle] at hv ⊢
          rw [show [0xed, 0xa0 + (r.toNat - 0x10000) / 0x400 / 0x40,
            0x80 + (r.toNat - 0x10000) / 0x400 % 0x40,
            0xed, 0xb0 + (r.toNat - 0x10000) % 0x400 / 0x40,
            0x80 + (r.toNat - 0x10000) % 0x400 % 0x40] ++ t =
            0xed :: (0xa0 + (r.toNat - 0x10000) / 0x400 / 0x40) ::
            ((0x80 + (r.toNat - 0x10000) / 0x400 % 0x40) ::
            0xed :: (0xb0 + (r.toNat - 0x10000) % 0x400 / 0x40) ::
            (0x80 + (r.toNat - 0x10000) % 0x400 % 0x40) :: t) from rfl,
            validUTF8_three _ _ _ _ (by omega) (by omega)] at hv
          exfalso
          rw [if_neg (by norm_num), if_pos rfl] at hv
          simp only [Bool.and_eq_true, decide_eq_true_eq] at hv
          obtain ⟨⟨⟨-, hv2⟩, -⟩, -⟩ := hv
          omega

theorem Encode_valid_eq (s : List Int) (h : ∀ r ∈ s, Scalar r)
    (hv : validUTF8 (Encode s) = true) : Encode s = stringToUTF8 s := by
  induction s with
  | nil => rfl
  | cons r s ih =>
    have hr := h r (by simp)
    have hs : ∀ x ∈ s, Scalar x := fun x hx => h x (by simp [hx])
    rw [Encode_cons] at hv ⊢
    obtain ⟨he, hv2⟩ := validUTF8_encodeChar r hr (Encode s) hv
    rw [he, ih hs hv2, stringToUTF8_cons]

/-!
Further chunk facts about the validity scan, and the error branch of the
state machine.
-/

theorem validUTF8_two_nil (b : Nat) (h1 : 0xc2 ≤ b) (h2 : b ≤ 0xdf) :
    validUTF8 [b] = false := by
  show validUTF8F 1 [b] = _
  simp only [validUTF8F]
  rw [if_neg (by omega), if_pos ⟨h1, h2⟩]

theorem validUTF8_three_nil (b : Nat) (h1 : 0xe0 ≤ b) (h2 : b ≤ 0xef) :
    validUTF8 [b] = false := by
  show validUTF8F 1 [b] = _
  simp only [validUTF8F]
  rw [if_neg (by omega), if_neg (by omega), if_pos ⟨h1, h2⟩]

theorem validUTF8_three_one (b b1 : Nat) (h1 : 0xe0 ≤ b) (h2 : b ≤ 0xef) :
    validUTF8 [b, b1] = false := by
  show validUTF8F 2 [b, b1] = _
  simp only [validUTF8F]
  rw [if_neg (by omega), if_neg (by omega), if_pos ⟨h1, h2⟩]

theorem decodeLoop_other (b : Nat) (rest : List Nat) (h0 : b ≠ 0)
    (h1 : ¬b < 0x80) (h2 : b &&& 0xe0 ≠ 0xc0) (h3 : b &&& 0xf0 ≠ 0xe0) :
    decodeLoop (b :: rest) = .error .InvalidEncoding := by
  show decodeLoopF (rest.length + 1) (b :: rest) = _
  simp only [decodeLoopF]
  rw [if_neg h0, if_neg h1, if_neg h2, if_neg h3]

/-!
On valid standard UTF-8 input that contains no NUL byte and no 4-byte
sequence, the state machine returns the input verbatim.
-/

theorem decodeLoop_valid_id_aux : ∀ (n : Nat) (d : List Nat),
    d.length ≤ n → validUTF8 d = true → (∀ b ∈ d, b ≠ 0 ∧ b < 0xf0) →
    decodeLoop d = .ok d := by
  intro n
  induction n with
  | zero =>
    intro d h _ _
    have hd : d = [] := List.eq_nil_of_length_eq_zero (Nat.le_zero.mp h)
    subst hd
    rfl
  | succ k ih =>
    intro d hlen hv hb
    match d with
    | [] => rfl
    | b :: rest =>
      obtain ⟨hb0, hbf⟩ := hb b (by simp)
      have hbr : ∀ x ∈ rest, x ≠ 0 ∧ x < 0xf0 := fun x hx => hb x (by simp [hx])
      by_cases h1 : b < 0x80
      · rw [validUTF8_ascii _ _ h1] at hv
        rw [decodeLoop_ascii _ _ hb0 h1,
          ih rest (by simp at hlen; omega) hv hbr]
        rfl
      · by_cases h2 : 0xc2 ≤ b ∧ b ≤ 0xdf
        · match rest with
          | [] =>
            rw [validUTF8_two_nil b h2.1 h2.2] at hv
            exact Bool.noConfusion hv
          | b1 :: rest1 =>
            rw [validUTF8_two _ _ _ h2.1 h2.2] at hv
            simp only [Bool.and_eq_true] at hv
            rw [decodeLoop_two_copy _ _ _
              (land_e0_of_range b (by omega) h2.1) (by omega),
              ih rest1 (by simp at hlen; omega) hv.2
                (fun x hx => hbr x (by simp [hx]))]
            rfl
        · by_cases h3 : 0xe0 ≤ b ∧ b ≤ 0xef
          · match rest with
            | [] =>
              rw [validUTF8_three_nil b h3.1 h3.2] at hv
              exact Bool.noConfusion hv
            | [b1] =>
              rw [validUTF8_three_one b b1 h3.1 h3.2] at hv
              exact Bool.noConfusion hv
            | b1 :: b2 :: rest2 =>
              rw [validUTF8_three _ _ _ _ h3.1 h3.2] at hv
              simp only [Bool.and_eq_true] at hv
              obtain ⟨⟨hhead, -⟩, hv2⟩ := hv
              have hns : ¬(b = 0xed ∧ 0xa0 ≤ b1 ∧ b1 ≤ 0xaf) := by
                intro ⟨he, hge, hle⟩
                rw [if_neg (by omega), if_pos he] at hhead
                simp only [decide_eq_true_eq] at hhead
                omega
              rw [decodeLoop_three_copy _ _ _ _
                (land_f0_of_range b (by omega) h3.1) hns,
                ih rest2 (by simp at hlen; omega) hv2
                  (fun x hx => hbr x (by simp [hx]))]
              rfl
          · exfalso
            have h4 : ¬(0xf0 ≤ b ∧ b ≤ 0xf4) := by omega
            have : validUTF8 (b :: rest) = false := by
              show validUTF8F (rest.length + 1) (b :: rest) = _
              simp only [validUTF8F]
              rw [if_neg h1, if_neg h2, if_neg h3, if_neg h4]
            rw [this] at hv
            exact Bool.noConfusion hv

/-!
A cleanly consumed prefix factors out of the state machine.
-/

set_option maxRecDepth 8000 in
theorem decodeLoop_append_ok : ∀ (n : Nat) (p q o : List Nat),
    p.length ≤ n → decodeLoop p = .ok o →
    decodeLoop (p ++ q) = (o ++ ·) <$> decodeLoop q := by
  intro n
  induction n with
  | zero =>
    intro p q o h hp
    have hd : p = [] := List.eq_nil_of_length_eq_zero (Nat.le_zero.mp h)
    subst hd
    have ho : o = [] := (Except.ok.inj hp).symm
    subst ho
    simp only [List.nil_append]
    cases decodeLoop q <;> rfl
  | succ k ih =>
    intro p q o hlen hp
    match p with
    | [] =>
      have ho : o = [] := (Except.ok.inj hp).symm
      subst ho
      simp only [List.nil_append]
      cases decodeLoop q <;> rfl
    | b :: rest =>
      by_cases h0 : b = 0
      · subst h0
        rw [decodeLoop_nul] at hp
        exact Except.noConfusion hp
      · by_cases h1 : b < 0x80
        · rw [decodeLoop_ascii _ _ h0 h1] at hp
          cases hrest : decodeLoop rest with
          | error e => rw [hrest] at hp; exact Except.noConfusion hp
          | ok o2 =>
            rw [hrest] at hp
            have ho : o = b :: o2 := (Except.ok.inj hp).symm
            subst ho
            rw [show (b :: rest) ++ q = b :: (rest ++ q) from rfl,
              decodeLoop_ascii _ _ h0 h1,
              ih rest q o2 (by simp at hlen; omega) hrest]
            cases decodeLoop q <;> rfl
        · by_cases h2 : b &&& 0xe0 = 0xc0
          · match rest with
            | [] =>
              rw [decodeLoop_two_short b h2] at hp
              exact Except.noConfusion hp
            | b1 :: rest1 =>
              by_cases hn : b = 0xc0 ∧ b1 = 0x80
              · obtain ⟨hb', hb1'⟩ := hn
                subst hb'
                subst hb1'
                rw [decodeLoop_overlong_nul] at hp
                cases hrest : decodeLoop rest1 with
                | error e => rw [hrest] at hp; exact Except.noConfusion hp
                | ok o2 =>
                  rw [hrest] at hp
                  have ho : o = 0 :: o2 := (Except.ok.inj hp).symm
                  subst ho
                  rw [show (0xc0 :: 0x80 :: rest1) ++ q =
                    0xc0 :: 0x80 :: (rest1 ++ q) from rfl,
                    decodeLoop_overlong_nul,
                    ih rest1 q o2 (by simp at hlen; omega) hrest]
                  cases decodeLoop q <;> rfl
              · rw [decodeLoop_two_copy _ _ _ h2 hn] at hp
                cases hrest : decodeLoop rest1 with
                | error e => rw [hrest] at hp; exact Except.noConfusion hp
                | ok o2 =>
                  rw [hrest] at hp
                  have ho : o = b :: b1 :: o2 := (Except.ok.inj hp).symm
                  subst ho
                  rw [show (b :: b1 :: rest1) ++ q = b :: b1 :: (rest1 ++ q)
                    from rfl,
                    decodeLoop_two_copy _ _ _ h2 hn,
                    ih rest1 q o2 (by simp at hlen; omega) hrest]
                  cases decodeLoop q <;> rfl
          · by_cases h3 : b &&& 0xf0 = 0xe0
            · match rest with
              | [] =>
                rw [decodeLoop_three_short1 b h3] at hp
                exact Except.noConfusion hp
              | [b1] =>
                rw [decodeLoop_three_short2 b b1 h3] at hp
                exact Except.noConfusion hp
              | b1 :: b2 :: rest2 =>
                by_cases hs : b = 0xed ∧ 0xa0 ≤ b1 ∧ b1 ≤ 0xaf
                · obtain ⟨hb', hs1, hs2⟩ := hs
                  subst hb'
                  match rest2 with
                  | [] =>
                    rw [decodeLoop_surr_short _ _ _ hs1 hs2 (by simp)] at hp
                    exact Except.noConfusion hp
                  | [b3] =>
                    rw [decodeLoop_surr_short _ _ _ hs1 hs2 (by simp)] at hp
                    exact Except.noConfusion hp
                  | [b3, b4] =>
                    rw [decodeLoop_surr_short _ _ _ hs1 hs2 (by simp)] at hp
                    exact Except.noConfusion hp
                  | b3 :: b4 :: b5 :: rest5 =>
                    by_cases hl : b3 = 0xed ∧ 0xb0 ≤ b4 ∧ b4 ≤ 0xbf
                    · obtain ⟨hb3', hl1, hl2⟩ := hl
                      subst hb3'
                      rw [decodeLoop_surr _ _ _ _ _ hs1 hs2 hl1 hl2] at hp
                      cases hrest : decodeLoop rest5 with
                      | error e =>
                        rw [hrest] at hp
                        exact Except.noConfusion hp
                      | ok o2 =>
                        rw [hrest] at hp
                        have hoo := Except.ok.inj hp
                        rw [show (0xed :: b1 :: b2 :: 0xed :: b4 :: b5 ::
                          rest5) ++ q = 0xed :: b1 :: b2 :: 0xed :: b4 :: b5 ::
                          (rest5 ++ q) from rfl,
                          decodeLoop_surr _ _ _ _ _ hs1 hs2 hl1 hl2,
                          ih rest5 q o2 (by simp at hlen; omega) hrest,
                          ← hoo]
                        cases decodeLoop q <;> simp [List.append_assoc]
                    · rw [decodeLoop_surr_bad _ _ _ _ _ _ hs1 hs2 hl] at hp
                      exact Except.noConfusion hp
                · rw [decodeLoop_three_copy _ _ _ _ h3 hs] at hp
                  cases hrest : decodeLoop rest2 with
                  | error e => rw [hrest] at hp; exact Except.noConfusion hp
                  | ok o2 =>
                    rw [hrest] at hp
                    have ho : o = b :: b1 :: b2 :: o2 := (Except.ok.inj hp).symm
                    subst ho
                    rw [show (b :: b1 :: b2 :: rest2) ++ q =
                      b :: b1 :: b2 :: (rest2 ++ q) from rfl,
                      decodeLoop_three_copy _ _ _ _ h3 hs,
                      ih rest2 q o2 (by simp at hlen; omega) hrest]
                    cases decodeLoop q <;> rfl
            · rw [decodeLoop_other b rest h0 h1 h2 h3] at hp
              exact Except.noConfusion hp

theorem enc3_eq (n : Nat) :
    enc3 n = [0xe0 + n / 0x1000 % 0x10, 0x80 + n / 0x40 % 0x40,
      0x80 + n % 0x40] := by
  unfold enc3
  rw [shr_eq_div, shr_eq_div, and_0xf, and_0x3f, and_0x3f]
  have e12 : (2 : Nat) ^ 12 = 0x1000 := by norm_num
  have e6 : (2 : Nat) ^ 6 = 0x40 := by norm_num
  rw [e12, e6,
    or_add_pow _ _ 5 0x20 (by norm_num) (by omega) (by omega),
    or_add_pow _ _ 6 0x40 (by norm_num) (by omega) (by omega),
    or_add_pow _ _ 6 0x40 (by norm_num) (by omega) (by omega)]

theorem stdUTF8_ascii (n : Nat) (h : n ≤ 0x7f) : stdUTF8 n = [n] := by
  unfold stdUTF8
  rw [if_pos h]

theorem stdUTF8_two (n : Nat) (h1 : 0x80 ≤ n) (h2 : n ≤ 0x7ff) :
    stdUTF8 n = [0xc0 + n / 0x40, 0x80 + n % 0x40] := by
  unfold stdUTF8
  rw [if_neg (by omega), if_pos h2]
  rw [shr_eq_div, and_0x3f]
  have e6 : (2 : Nat) ^ 6 = 0x40 := by norm_num
  rw [e6, or_add_pow _ _ 6 0x40 (by norm_num) (by omega) (by omega),
    or_add_pow _ _ 6 0x40 (by norm_num) (by omega) (by omega)]

theorem stdUTF8_three (n : Nat) (h1 : 0x800 ≤ n) (h2 : n ≤ 0xffff) :
    stdUTF8 n = [0xe0 + n / 0x1000, 0x80 + n / 0x40 % 0x40,
      0x80 + n % 0x40] := by
  unfold stdUTF8
  rw [if_neg (by omega), if_neg (by omega)]
  rw [shr_eq_div, shr_eq_div, and_0x3f, and_0x3f]
  have e12 : (2 : Nat) ^ 12 = 0x1000 := by norm_num
  have e6 : (2 : Nat) ^ 6 = 0x40 := by norm_num
  rw [e12, e6,
    or_add_pow _ _ 5 0x20 (by norm_num) (by omega) (by omega),
    or_add_pow _ _ 6 0x40 (by norm_num) (by omega) (by omega),
    or_add_pow _ _ 6 0x40 (by norm_num) (by omega) (by omega)]

theorem zero_not_mem_encodeChar (r : Int) : 0 ∉ encodeChar r := by
  intro h0
  by_cases hz : r = 0
  · subst hz
    rw [encodeChar_nul] at h0
    simp at h0
  · by_cases ha : 1 ≤ r ∧ r ≤ 0x7f
    · rw [encodeChar_ascii r ha.1 ha.2] at h0
      simp at h0
      omega
    · by_cases h2 : 0x80 ≤ r ∧ r ≤ 0x7ff
      · rw [encodeChar_two r h2.1 h2.2] at h0
        simp at h0
        rcases h0 with h | h <;> omega
      · by_cases h3 : 0x800 ≤ r ∧ r ≤ 0xffff
        · rw [encodeChar_three r h3.1 h3.2] at h0
          simp at h0
          rcases h0 with h | h | h <;> omega
        · by_cases h4 : 0x10000 ≤ r ∧ r ≤ 0x10ffff
          · rw [encodeChar_supp r h4.1 h4.2] at h0
            simp only [List.mem_cons, List.not_mem_nil, or_false] at h0
            rcases h0 with h | h | h | h | h | h <;> omega
          · rw [encodeChar_replacement r (by omega)] at h0
            simp at h0

/-!
The claims.
-/

/-- C1: round-trip. For every Unicode string `s` consisting only of
scalar values (no surrogate codepoints), `Decode (Encode s)` returns `s`
with no error — at the byte level, it returns `Except.ok` of the UTF-8
bytes that the Go string `s` holds. The one-codepoint case is the
instance `s = [cp]`. -/
theorem c1_round_trip (s : List Int) (h : ∀ r ∈ s, Scalar r) :
    Decode (Encode s) = .ok (stringToUTF8 s) := by
  unfold Decode
  by_cases hv : validUTF8 (Encode s) = true
  · rw [if_pos hv, Encode_valid_eq s h hv]
  · rw [if_neg hv]
    exact decodeLoop_Encode s h

/-- Witness for C1 at the five-codepoint string
`[U+0000, U+0041, U+07FF, U+65E5, U+1F4A9]`. -/
theorem c1_round_trip_witness :
    Decode (Encode [(0 : Int), 0x41, 0x7ff, 0x65e5, 0x1f4a9]) =
      .ok [0x00, 0x41, 0xdf, 0xbf, 0xe6, 0x97, 0xa5, 0xf0, 0x9f, 0x92, 0xa9] :=
  (c1_round_trip [(0 : Int), 0x41, 0x7ff, 0x65e5, 0x1f4a9]
    (by decide)).trans (by decide)

/-- C2 counterexample: the claim quantifies over every valid standard
UTF-8 input, but the fast path and the full state machine disagree on
two families of such inputs. `[0x00]` is valid standard UTF-8 and the
fast path (hence `Decode`) returns it verbatim, while the state machine
fails with `InvalidNUL`; the 4-byte sequence `[0xF0,0x9F,0x92,0xA9]`
(standard UTF-8 for U+1F4A9) is returned verbatim by the fast path while
the state machine fails with `InvalidEncoding`. -/
theorem c2_fast_path_counterexample :
    validUTF8 [0x00] = true ∧ Decode [0x00] = .ok [0x00] ∧
      decodeLoop [0x00] = .error .InvalidNUL ∧
      validUTF8 [0xf0, 0x9f, 0x92, 0xa9] = true ∧
      Decode [0xf0, 0x9f, 0x92, 0xa9] = .ok [0xf0, 0x9f, 0x92, 0xa9] ∧
      decodeLoop [0xf0, 0x9f, 0x92, 0xa9] = .error .InvalidEncoding := by
  refine ⟨by decide, by decide, by decide, by decide, by decide, by decide⟩

/-- C2 amended: for every input that is valid standard UTF-8, contains
no `0x00` byte, and contains no byte `≥ 0xF0` (hence no 4-byte
sequence), the full state machine returns the input verbatim with no
error — exactly what the fast path returns — so on such inputs omitting
the fast path makes no behavioral difference. -/
theorem c2_fast_path_equiv (d : List Nat) (hv : validUTF8 d = true)
    (hb : ∀ b ∈ d, b ≠ 0 ∧ b < 0xf0) :
    decodeLoop d = .ok d ∧ Decode d = .ok d := by
  refine ⟨decodeLoop_valid_id_aux d.length d le_rfl hv hb, ?_⟩
  unfold Decode
  rw [if_pos hv]

/-- Witness for the amended C2 at `[0x41, 0xC3, 0xA5, 0xE6, 0x97, 0xA5]`
(the UTF-8 bytes of the string with codepoints U+0041 U+00E5 U+65E5). -/
theorem c2_fast_path_equiv_witness :
    decodeLoop [0x41, 0xc3, 0xa5, 0xe6, 0x97, 0xa5] =
      .ok [0x41, 0xc3, 0xa5, 0xe6, 0x97, 0xa5] ∧
    Decode [0x41, 0xc3, 0xa5, 0xe6, 0x97, 0xa5] =
      .ok [0x41, 0xc3, 0xa5, 0xe6, 0x97, 0xa5] :=
  c2_fast_path_equiv [0x41, 0xc3, 0xa5, 0xe6, 0x97, 0xa5]
    (by decide) (by decide)

/-- C3 counterexample: `[0x00]` contains a literal `0x00` byte, yet
`Decode` does not fail with `InvalidNUL` — the byte is valid standard
UTF-8, so the fast path returns it verbatim. -/
theorem c3_nul_counterexample :
    Decode [0x00] = .ok [0x00] ∧ Decode [0x00] ≠ .error .InvalidNUL := by
  refine ⟨by decide, by decide⟩

/-- C3 amended: if the input is not valid standard UTF-8 (so the state
machine runs) and contains a `0x00` byte at a lead position — that is,
immediately after a prefix that the state machine consumes cleanly —
then `Decode` fails with `InvalidNUL`. (As stated the claim is false:
a sequence containing `0x00` that is valid standard UTF-8, such as
`[0x00]` itself, is returned verbatim by the fast path.) -/
theorem c3_nul_rejection (d p q o : List Nat) (hd : d = p ++ 0 :: q)
    (hp : decodeLoop p = .ok o) (hv : validUTF8 d = false) :
    Decode d = .error .InvalidNUL := by
  subst hd
  unfold Decode
  rw [if_neg (by simp [hv])]
  rw [decodeLoop_append_ok p.length p (0 :: q) o le_rfl hp, decodeLoop_nul]
  rfl

/-- Witness for the amended C3 at `[0x41, 0x00, 0xC0]`: the `0x41`
prefix is consumed cleanly, `0x00` follows at a lead position, and the
whole input is not valid standard UTF-8 because of the trailing
`0xC0`. -/
theorem c3_nul_rejection_witness :
    Decode [0x41, 0x00, 0xc0] = .error .InvalidNUL :=
  c3_nul_rejection [0x41, 0x00, 0xc0] [0x41] [0xc0] [0x41] rfl
    (by decide) (by decide)

/-- C4 counterexample: in `[0xED,0xA0,0x80,0xED,0x70,0x80]` the first
triplet decodes (by the 3-byte rule) to the high surrogate 0xD800 and
the second to the low surrogate 0xDC00, so the claim requires `Decode`
to emit the single codepoint 0x10000 and advance 6 bytes; the code
instead fails with `InvalidEncoding`, because it tests the literal byte
ranges (the fifth byte must lie in [0xB0,0xBF]; 0x70 does not), not the
decoded values. -/
theorem c4_surrogate_counterexample :
    triple 0xed 0xa0 0x80 = 0xd800 ∧ triple 0xed 0x70 0x80 = 0xdc00 ∧
      Decode [0xed, 0xa0, 0x80, 0xed, 0x70, 0x80] = .error .InvalidEncoding := by
  refine ⟨by decide, by decide, by decide⟩

/-- C4 amended: whenever the state machine encounters a high-surrogate
triplet in canonical byte form (`0xED` with second byte in [0xA0,0xAF])
immediately followed by a low-surrogate triplet in canonical byte form
(`0xED` with fifth byte in [0xB0,0xBF]), it emits exactly one codepoint
equal to `0x10000 + (high - 0xD800) * 0x400 + (low - 0xDC00)` — where
`high` and `low` are the decoded values of the two triplets — and
advances 6 bytes, continuing with the remaining input. -/
theorem c4_surrogate_reconstruction (b1 b2 b4 b5 : Nat) (rest : List Nat)
    (ha1 : 0xa0 ≤ b1) (ha2 : b1 ≤ 0xaf) (hb1 : 0xb0 ≤ b4) (hb2 : b4 ≤ 0xbf) :
    decodeLoop (0xed :: b1 :: b2 :: 0xed :: b4 :: b5 :: rest) =
      (utf8EncodeRune (0x10000 + (triple 0xed b1 b2 - 0xd800) * 0x400 +
        (triple 0xed b4 b5 - 0xdc00)) ++ ·) <$> decodeLoop rest :=
  decodeLoop_surr b1 b2 b4 b5 rest ha1 ha2 hb1 hb2

/-- Witness for the amended C4 at the encoding of U+1F4A9. -/
theorem c4_surrogate_reconstruction_witness :
    decodeLoop [0xed, 0xa0, 0xbd, 0xed, 0xb2, 0xa9] =
      .ok [0xf0, 0x9f, 0x92, 0xa9] :=
  (c4_surrogate_reconstruction 0xa0 0xbd 0xb2 0xa9 []
    (by decide) (by decide) (by decide) (by decide)).trans (by decide)

/-- C5: supplementary split on encode. For every codepoint in
[0x10000, 0x10FFFF], `Encode` emits 6 bytes: the ordinary 3-byte rule
applied to `high = (cp - 0x10000) / 0x400 + 0xD800` (the `>> 10` half)
and to `low = (cp - 0x10000) % 0x400 + 0xDC00` (the `& 0x3FF` half). -/
theorem c5_supplementary_split (r : Int) (h1 : 0x10000 ≤ r)
    (h2 : r ≤ 0x10ffff) :
    encodeChar r = enc3 ((r.toNat - 0x10000) / 0x400 + 0xd800) ++
      enc3 ((r.toNat - 0x10000) % 0x400 + 0xdc00) ∧
      (encodeChar r).length = 6 := by
  constructor
  · rw [encodeChar_supp r h1 h2, enc3_eq, enc3_eq]
    simp only [List.cons_append, List.nil_append, List.cons.injEq, and_true]
    have hm : r.toNat - 0x10000 ≤ 0xfffff := by omega
    refine ⟨by omega, by omega, by omega, by omega, by omega, by omega⟩
  · rw [encodeChar_supp r h1 h2]
    rfl

/-- Witness for C5 at U+1F4A9, whose 6 bytes are exactly
`[0xED, 0xA0, 0xBD, 0xED, 0xB2, 0xA9]`. -/
theorem c5_supplementary_split_witness :
    encodeChar 0x1f4a9 = [0xed, 0xa0, 0xbd, 0xed, 0xb2, 0xa9] :=
  ((c5_supplementary_split 0x1f4a9 (by decide) (by decide)).1).trans
    (by decide)

/-- C6: identity below 0x10000 except NUL. For every codepoint in
[1, 0xFFFF], `Encode` produces exactly the standard UTF-8 byte encoding
of that codepoint (by the usual one/two/three-byte formulas), and the
two encodings differ at codepoint 0. -/
theorem c6_identity_below_bmp (r : Int) (h1 : 1 ≤ r) (h2 : r ≤ 0xffff) :
    encodeChar r = stdUTF8 r.toNat ∧ encodeChar 0 ≠ stdUTF8 0 := by
  refine ⟨?_, by decide⟩
  by_cases ha : r ≤ 0x7f
  · rw [encodeChar_ascii r h1 ha, stdUTF8_ascii _ (by omega)]
  · by_cases hb : r ≤ 0x7ff
    · rw [encodeChar_two r (by omega) hb, stdUTF8_two _ (by omega) (by omega)]
    · rw [encodeChar_three r (by omega) h2,
        stdUTF8_three _ (by omega) (by omega)]

/-- Witness for C6 at U+65E5. -/
theorem c6_identity_below_bmp_witness :
    encodeChar 0x65e5 = stdUTF8 0x65e5 ∧ encodeChar 0 ≠ stdUTF8 0 :=
  c6_identity_below_bmp 0x65e5 (by decide) (by decide)

/-- C7: truncation error classification. A 2-byte lead with no byte
after it, and a 3-byte lead with fewer than two bytes after it, fail
with `UnexpectedEnd`; a complete canonical high-surrogate triplet with
fewer than 3 further bytes fails with `UnexpectedEndSurrogate`; in
particular `Decode [0xC0]` fails with `UnexpectedEnd` and
`Decode [0xED,0xA0,0xBD]` fails with `UnexpectedEndSurrogate`. -/
theorem c7_truncation_errors :
    (∀ b, b &&& 0xe0 = 0xc0 → decodeLoop [b] = .error .UnexpectedEnd) ∧
    (∀ b, b &&& 0xf0 = 0xe0 → decodeLoop [b] = .error .UnexpectedEnd) ∧
    (∀ b b1, b &&& 0xf0 = 0xe0 →
      decodeLoop [b, b1] = .error .UnexpectedEnd) ∧
    (∀ b1 b2 rest, 0xa0 ≤ b1 → b1 ≤ 0xaf → rest.length < 3 →
      decodeLoop (0xed :: b1 :: b2 :: rest) =
        .error .UnexpectedEndSurrogate) ∧
    Decode [0xc0] = .error .UnexpectedEnd ∧
    Decode [0xed, 0xa0, 0xbd] = .error .UnexpectedEndSurrogate :=
  ⟨decodeLoop_two_short, decodeLoop_three_short1, decodeLoop_three_short2,
    fun b1 b2 rest h1 h2 h3 => decodeLoop_surr_short b1 b2 rest h1 h2 h3,
    by decide, by decide⟩

/-- Witness for C7 at the truncated inputs `[0xD0]`, `[0xE3]`,
`[0xE3, 0x81]` and `[0xED, 0xA5, 0x90, 0x33]`. -/
theorem c7_truncation_errors_witness :
    decodeLoop [0xd0] = .error .UnexpectedEnd ∧
    decodeLoop [0xe3] = .error .UnexpectedEnd ∧
    decodeLoop [0xe3, 0x81] = .error .UnexpectedEnd ∧
    decodeLoop [0xed, 0xa5, 0x90, 0x33] = .error .UnexpectedEndSurrogate :=
  ⟨c7_truncation_errors.1 0xd0 (by decide),
    c7_truncation_errors.2.1 0xe3 (by decide),
    c7_truncation_errors.2.2.1 0xe3 0x81 (by decide),
    c7_truncation_errors.2.2.2.1 0xa5 0x90 [0x33] (by decide) (by decide)
      (by decide)⟩

/-- C8: the encoder never emits a zero byte, for any input string —
including strings containing the NUL codepoint, which becomes the two
bytes `0xC0 0x80`. -/
theorem c8_encoder_no_zero_byte (s : List Int) : 0 ∉ Encode s := by
  intro hmem
  simp only [Encode, List.mem_flatten, List.mem_map] at hmem
  obtain ⟨l, ⟨r, hr, rfl⟩, h0⟩ := hmem
  exact zero_not_mem_encodeChar r h0

/-- Witness for C8 at a string containing NUL, ASCII, and a
supplementary codepoint. -/
theorem c8_encoder_no_zero_byte_witness :
    0 ∉ Encode [(0 : Int), 0x41, 0x1f4a9] :=
  c8_encoder_no_zero_byte [(0 : Int), 0x41, 0x1f4a9]

/-- C9: out-of-range substitution. For every rune outside
[0, 0x10FFFF] (negative or too large), the encoder does not fail: it
emits exactly the three UTF-8 bytes of U+FFFD for that rune, wherever
it occurs in the input. -/
theorem c9_out_of_range_replacement (r : Int) (h : r < 0 ∨ 0x10ffff < r)
    (s1 s2 : List Int) :
    encodeChar r = [0xef, 0xbf, 0xbd] ∧
      Encode (s1 ++ r :: s2) =
        Encode s1 ++ 0xef :: 0xbf :: 0xbd :: Encode s2 := by
  have he := encodeChar_replacement r h
  refine ⟨he, ?_⟩
  simp [Encode, he]

/-- Witness for C9 at the rune `-1` between two ASCII codepoints. -/
theorem c9_out_of_range_replacement_witness :
    encodeChar (-1) = [0xef, 0xbf, 0xbd] ∧
      Encode ([(0x41 : Int)] ++ (-1) :: [(0x42 : Int)]) =
        Encode [(0x41 : Int)] ++ 0xef :: 0xbf :: 0xbd ::
          Encode [(0x42 : Int)] :=
  c9_out_of_range_replacement (-1) (Or.inl (by decide)) [0x41] [0x42]

/-- C10: the decoder does not validate continuation bytes. Any 2-byte
lead other than the exact pair `0xC0 0x80` has its two bytes copied
verbatim, and any 3-byte lead not classified as a canonical high
surrogate has its three bytes copied verbatim, with no check that the
following bytes lie in [0x80,0xBF]; consequently `Decode [0xC3,0x41]`
and `Decode [0xED,0xB0,0x80]` succeed although their results are not
valid standard UTF-8. -/
theorem c10_no_continuation_validation :
    (∀ b b1 rest, b &&& 0xe0 = 0xc0 → ¬(b = 0xc0 ∧ b1 = 0x80) →
      decodeLoop (b :: b1 :: rest) = (b :: b1 :: ·) <$> decodeLoop rest) ∧
    (∀ b b1 b2 rest, b &&& 0xf0 = 0xe0 →
      ¬(b = 0xed ∧ 0xa0 ≤ b1 ∧ b1 ≤ 0xaf) →
      decodeLoop (b :: b1 :: b2 :: rest) =
        (b :: b1 :: b2 :: ·) <$> decodeLoop rest) ∧
    Decode [0xc3, 0x41] = .ok [0xc3, 0x41] ∧
    validUTF8 [0xc3, 0x41] = false ∧
    Decode [0xed, 0xb0, 0x80] = .ok [0xed, 0xb0, 0x80] ∧
    validUTF8 [0xed, 0xb0, 0x80] = false :=
  ⟨decodeLoop_two_copy, decodeLoop_three_copy, by decide, by decide,
    by decide, by decide⟩

/-- Witness for C10 at `[0xC3, 0x41]` and `[0xED, 0xB0, 0x80]`. -/
theorem c10_no_continuation_validation_witness :
    decodeLoop [0xc3, 0x41] = (0xc3 :: 0x41 :: ·) <$> decodeLoop [] ∧
    decodeLoop [0xed, 0xb0, 0x80] =
      (0xed :: 0xb0 :: 0x80 :: ·) <$> decodeLoop [] :=
  ⟨c10_no_continuation_validation.1 0xc3 0x41 [] (by decide) (by decide),
    c10_no_continuation_validation.2.1 0xed 0xb0 0x80 [] (by decide)
      (by decide)⟩

end Jutf
